import Mathlib

/-!
# Verification of `srfrog/dict` (insertion-ordered Go dictionary)

Shallow embedding of the package `dict`:
  * `conv.go`  — `toString`, `Item`, `toIterable` (the iterable adapter)
  * `key.go`   — `Key`, `isValidKeyType`, `MakeKey` (the key codec, FNV-1a 64)
  * `dict.go`  — the `Dict` container and its public operations

Go `interface{}` values are modelled by the inductive `GoVal` covering the
fragment of runtime types the repository's key codec and tests exercise
(signed integers of any width collapse to `vint`, unsigned to `vuint`,
strings, `Stringer` implementations, slices, and the nil interface).
Floating-point keys exist in the source but are outside this embedding's
value universe (binary floating point is not modelled).

A nil `*Dict` receiver is modelled as `none : Option Dict`.  A Go runtime
panic (out-of-range slice index) is modelled as `Except.error ()`.
Machine integers (`int64` counters, `uint64` hashes) are modelled as
`Nat`/`Int` with explicit reduction `% 2 ^ 64` where overflow can occur.
-/

set_option autoImplicit false

namespace dict

/-- Go `interface{}` values restricted to the fragment used by the package:
nil interface, signed integers (all widths collapsed, as `toInt64` does),
unsigned integers (as `toUint64` does), strings, values implementing
`Stringer` (represented by the string their `String()` method returns),
and `[]interface{}` slices. -/
inductive GoVal where
  | vnil : GoVal
  | vint (n : Int) : GoVal
  | vuint (n : Nat) : GoVal
  | vstr (s : String) : GoVal
  | vstringer (s : String) : GoVal
  | vslice (xs : List GoVal) : GoVal

mutual

/-- Structural equality of `GoVal`s; this is what `reflect.DeepEqual` computes
on the fragment of Go values modelled here (`DeepEqual` compares dynamic
types and then contents recursively). -/
def GoVal.beq : GoVal → GoVal → Bool
  | GoVal.vnil, GoVal.vnil => true
  | GoVal.vint a, GoVal.vint b => a == b
  | GoVal.vuint a, GoVal.vuint b => a == b
  | GoVal.vstr a, GoVal.vstr b => a == b
  | GoVal.vstringer a, GoVal.vstringer b => a == b
  | GoVal.vslice xs, GoVal.vslice ys => GoVal.beqList xs ys
  | _, _ => false

/-- Elementwise structural equality of `[]interface{}` slices. -/
def GoVal.beqList : List GoVal → List GoVal → Bool
  | [], [] => true
  | x :: xs, y :: ys => GoVal.beq x y && GoVal.beqList xs ys
  | _, _ => false

end

mutual

theorem GoVal.beq_iff : ∀ x y : GoVal, GoVal.beq x y = true ↔ x = y
  | GoVal.vnil, GoVal.vnil => by simp [GoVal.beq]
  | GoVal.vint a, GoVal.vint b => by simp [GoVal.beq]
  | GoVal.vuint a, GoVal.vuint b => by simp [GoVal.beq]
  | GoVal.vstr a, GoVal.vstr b => by simp [GoVal.beq]
  | GoVal.vstringer a, GoVal.vstringer b => by simp [GoVal.beq]
  | GoVal.vslice xs, GoVal.vslice ys => by
      simp only [GoVal.beq, GoVal.beqList_iff xs ys, GoVal.vslice.injEq]
  | GoVal.vnil, GoVal.vint _ | GoVal.vnil, GoVal.vuint _ | GoVal.vnil, GoVal.vstr _
  | GoVal.vnil, GoVal.vstringer _ | GoVal.vnil, GoVal.vslice _
  | GoVal.vint _, GoVal.vnil | GoVal.vint _, GoVal.vuint _ | GoVal.vint _, GoVal.vstr _
  | GoVal.vint _, GoVal.vstringer _ | GoVal.vint _, GoVal.vslice _
  | GoVal.vuint _, GoVal.vnil | GoVal.vuint _, GoVal.vint _ | GoVal.vuint _, GoVal.vstr _
  | GoVal.vuint _, GoVal.vstringer _ | GoVal.vuint _, GoVal.vslice _
  | GoVal.vstr _, GoVal.vnil | GoVal.vstr _, GoVal.vint _ | GoVal.vstr _, GoVal.vuint _
  | GoVal.vstr _, GoVal.vstringer _ | GoVal.vstr _, GoVal.vslice _
  | GoVal.vstringer _, GoVal.vnil | GoVal.vstringer _, GoVal.vint _
  | GoVal.vstringer _, GoVal.vuint _ | GoVal.vstringer _, GoVal.vstr _
  | GoVal.vstringer _, GoVal.vslice _
  | GoVal.vslice _, GoVal.vnil | GoVal.vslice _, GoVal.vint _
  | GoVal.vslice _, GoVal.vuint _ | GoVal.vslice _, GoVal.vstr _
  | GoVal.vslice _, GoVal.vstringer _ => by simp [GoVal.beq]

theorem GoVal.beqList_iff : ∀ xs ys : List GoVal, GoVal.beqList xs ys = true ↔ xs = ys
  | [], [] => by simp [GoVal.beqList]
  | [], _ :: _ => by simp [GoVal.beqList]
  | _ :: _, [] => by simp [GoVal.beqList]
  | x :: xs, y :: ys => by
      simp [GoVal.beqList, GoVal.beq_iff x y, GoVal.beqList_iff xs ys]

end

instance : DecidableEq GoVal := fun x y =>
  decidable_of_iff (GoVal.beq x y = true) (GoVal.beq_iff x y)

instance {e a : Type} [DecidableEq e] [DecidableEq a] : DecidableEq (Except e a) :=
  fun x y =>
    match x, y with
    | Except.error u, Except.error w =>
      if h : u = w then isTrue (by rw [h])
      else isFalse (by intro hh; cases hh; exact h rfl)
    | Except.ok u, Except.ok w =>
      if h : u = w then isTrue (by rw [h])
      else isFalse (by intro hh; cases hh; exact h rfl)
    | Except.error _, Except.ok _ => isFalse (by intro hh; cases hh)
    | Except.ok _, Except.error _ => isFalse (by intro hh; cases hh)

/-- `key.go`: `Key` — ID is the 64-bit hash of Name. -/
structure Key where
  ID : Nat
  Name : String
  deriving DecidableEq

/-- `conv.go`: `Item` — a key-value pair; `Key` is `interface{}` (may be nil). -/
structure Item where
  Key : GoVal
  Value : GoVal
  deriving DecidableEq

/-- FNV-1a 64-bit offset basis (Go `hash/fnv`). -/
def fnvOffset64 : Nat := 14695981039346656037

/-- FNV-1a 64-bit prime (Go `hash/fnv`). -/
def fnvPrime64 : Nat := 1099511628211

/-- One FNV-1a step: xor in the byte, multiply by the prime, mod 2^64. -/
def fnv1aStep (h b : Nat) : Nat := ((h ^^^ b) * fnvPrime64) % 2 ^ 64

/-- FNV-1a 64-bit hash of a byte sequence (Go `fnv.New64a` + `Write` + `Sum64`). -/
def fnv1a64 (bs : List Nat) : Nat := bs.foldl fnv1aStep fnvOffset64

/-- UTF-8 encoding of one character (the bytes `h.Write([]byte(name))` sees). -/
def utf8Bytes (c : Char) : List Nat :=
  let n := c.toNat
  if n < 0x80 then [n]
  else if n < 0x800 then
    [0xC0 ||| (n >>> 6), 0x80 ||| (n &&& 0x3F)]
  else if n < 0x10000 then
    [0xE0 ||| (n >>> 12), 0x80 ||| ((n >>> 6) &&& 0x3F), 0x80 ||| (n &&& 0x3F)]
  else
    [0xF0 ||| (n >>> 18), 0x80 ||| ((n >>> 12) &&& 0x3F),
     0x80 ||| ((n >>> 6) &&& 0x3F), 0x80 ||| (n &&& 0x3F)]

/-- UTF-8 bytes of a string. -/
def strBytes (s : String) : List Nat := (s.data.map utf8Bytes).flatten

/-- The 64-bit hash of a canonical key name. -/
def hashName (name : String) : Nat := fnv1a64 (strBytes name)

/-- `strconv.FormatInt(_, 10)`: base-10 signed decimal text. -/
def formatInt : Int → String
  | Int.ofNat n => Nat.repr n
  | Int.negSucc n => "-" ++ Nat.repr (n + 1)

/-- `strconv.FormatUint(_, 10)`: base-10 unsigned decimal text. -/
def formatUint (n : Nat) : String := Nat.repr n

/-- `conv.go`: `toString` — canonical text of a value; the switch leaves `s`
empty for types it does not cover.  (The float cases of the source are
outside this embedding's value universe.) -/
def toString : GoVal → String
  | GoVal.vint n => formatInt n
  | GoVal.vuint n => formatUint n
  | GoVal.vstr s => s
  | GoVal.vstringer s => s
  | _ => ""

/-- `key.go`: `isValidKeyType` — runtime-type switch on accepted key types.
(The float cases of the source are outside this embedding's value universe.) -/
def isValidKeyType : GoVal → Bool
  | GoVal.vint _ => true
  | GoVal.vuint _ => true
  | GoVal.vstr _ => true
  | GoVal.vstringer _ => true
  | _ => false

/-- `key.go`: `MakeKey` — rejects invalid types and empty canonical text,
otherwise hashes the canonical text.  (`fnv`'s `Write` never returns an
error, so the source's dead `err != nil` branch is not modelled.) -/
def MakeKey (value : GoVal) : Option Key :=
  if !isValidKeyType value then none
  else
    let name := toString value
    if name = "" then none
    else some { ID := hashName name, Name := name }

example : MakeKey (GoVal.vint 123) = MakeKey (GoVal.vstr "123") := by decide
example : MakeKey (GoVal.vstr "") = none := by decide
example : MakeKey GoVal.vnil = none := by decide
example : (MakeKey (GoVal.vint 1)).map Key.Name = some "1" := by decide

/-! ## The Go map `map[uint64]interface{}` as an association list

The value index is modelled as an association list with (invariantly)
no duplicate keys; `mapGet`/`mapSet`/`mapDel` model Go map read, write
and `delete`. -/

/-- Go map read returning presence: `v, ok := m[k]`. -/
def mapGet (m : List (Nat × GoVal)) (k : Nat) : Option GoVal :=
  match m with
  | [] => none
  | (k', v) :: rest => if k' = k then some v else mapGet rest k

/-- Go map write `m[k] = v`: replace the binding if present, else add it. -/
def mapSet (m : List (Nat × GoVal)) (k : Nat) (v : GoVal) : List (Nat × GoVal) :=
  match m with
  | [] => [(k, v)]
  | (k', v') :: rest => if k' = k then (k, v) :: rest else (k', v') :: mapSet rest k v

/-- Go `delete(m, k)`. -/
def mapDel (m : List (Nat × GoVal)) (k : Nat) : List (Nat × GoVal) :=
  m.filter (fun e => e.1 ≠ k)

/-! ## The container (`dict.go`) -/

/-- `dict.go`: `Dict` — cached size counter, version counter, the insertion-order
key sequence and the identity-to-value index.  The `int64` counters only ever
take the non-negative values stored by the code, modelled as `Nat`.  The
`sync.RWMutex` has no sequential content and is not modelled. -/
structure Dict where
  size : Nat
  version : Nat
  keys : List Key
  values : List (Nat × GoVal)
  deriving DecidableEq

/-- A `*Dict` pointer: `none` is the nil pointer. -/
abbrev DictRef := Option Dict

/-- `&Dict{values: make(map[uint64]interface{})}`: the empty dictionary. -/
def emptyDict : Dict := { size := 0, version := 0, keys := [], values := [] }

/-- `Len()`: atomic read of the cached size counter (panics on nil receiver,
so only defined on a non-nil `Dict`). -/
def Dict.Len (d : Dict) : Nat := d.size

/-- `Version()`: atomic read of the version counter. -/
def Dict.Version (d : Dict) : Nat := d.version

/-- `IsEmpty()`: `d == nil || d.Len() == 0`. -/
def IsEmpty (d : DictRef) : Bool :=
  match d with
  | none => true
  | some dd => dd.size == 0

/-- `Set(key, value)`: a nil receiver is replaced by a fresh dict; a rejected
key is a silent no-op; an existing identity gets its value replaced (version
bumps only if `reflect.DeepEqual` says the value changed); a new identity is
appended to the key sequence with size and version bumped. -/
def Set (d : DictRef) (key value : GoVal) : Dict :=
  let dd := match d with
    | none => emptyDict
    | some dd => dd
  match MakeKey key with
  | none => dd
  | some k =>
    match mapGet dd.values k.ID with
    | some curr =>
      { dd with
        values := mapSet dd.values k.ID value,
        version := if GoVal.beq value curr then dd.version else dd.version + 1 }
    | none =>
      { dd with
        keys := dd.keys ++ [k],
        values := mapSet dd.values k.ID value,
        size := dd.size + 1,
        version := dd.version + 1 }

/-- `GetKeyID(key)`: identity resolution plus membership check. -/
def GetKeyID (d : DictRef) (key : GoVal) : Nat × Bool :=
  match d with
  | none => (0, false)
  | some dd =>
    if dd.size == 0 then (0, false)
    else
      match MakeKey key with
      | none => (0, false)
      | some k => (k.ID, (mapGet dd.values k.ID).isSome)

/-- `Get(key, alt...)`: nil on an empty dict, else the stored value when the
identity is found, else the first alternate when the variadic slice is
non-nil, else nil. -/
def Get (d : DictRef) (key : GoVal) (alt : List GoVal) : GoVal :=
  if IsEmpty d then GoVal.vnil
  else
    let hok := GetKeyID d key
    if hok.2 then
      match d with
      | none => GoVal.vnil
      | some dd => (mapGet dd.values hok.1).getD GoVal.vnil
    else
      match alt with
      | a :: _ => a
      | [] => GoVal.vnil

/-- `deleteItem(idx)`: no-op when the dict is empty or `idx >= d.Len()`
(both checks read the cached size counter); otherwise removes the key at
`idx` from the sequence, deletes its value, stores `len(keys)-1` in the size
counter and bumps the version.  `d.keys[idx]` out of range is a Go panic,
modelled as `Except.error ()`. -/
def deleteItem (d : Dict) (idx : Nat) : Except Unit Dict :=
  if d.size == 0 || decide (d.size ≤ idx) then Except.ok d
  else
    match d.keys.get? idx with
    | none => Except.error ()
    | some k =>
      Except.ok
        { d with
          values := mapDel d.values k.ID,
          keys := d.keys.eraseIdx idx,
          size := d.keys.length - 1,
          version := d.version + 1 }

/-- `Del(key)`: resolve and check membership, linear-scan the key sequence
for the positional index (`idx` stays 0 when no position matches, as in the
source), re-check bounds against the live sequence, then `deleteItem`. -/
def Del (d : DictRef) (key : GoVal) : Except Unit (Bool × DictRef) :=
  match GetKeyID d key with
  | (_, false) => Except.ok (false, d)
  | (id, true) =>
    match d with
    | none => Except.ok (false, none)
    | some dd =>
      let idx := (dd.keys.findIdx? (fun k => k.ID == id)).getD 0
      if decide (dd.keys.length ≤ idx) || (dd.keys.get? idx).map Key.ID ≠ some id then
        Except.ok (false, some dd)
      else
        (deleteItem dd idx).map (fun dd' => (true, some dd'))

/-- `Pop(key, alt...)`: the source forwards the variadic slice `alt` to `Get`
as a single argument (`d.Get(key, alt)`, not `d.Get(key, alt...)`), so `Get`
receives a one-element variadic slice whose element is the boxed slice; the
boxed slice is a non-nil interface value. `Del` runs only when the returned
value is a non-nil interface. -/
def Pop (d : DictRef) (key : GoVal) (alt : List GoVal) : Except Unit (GoVal × DictRef) :=
  let value := Get d key [GoVal.vslice alt]
  if value ≠ GoVal.vnil then
    (Del d key).map (fun r => (value, r.2))
  else
    Except.ok (value, d)

/-- `PopItem()`: nil on an empty dict (cached-counter check); then the
in-lock length check `size := len(d.keys); if size == 0` reads the live
sequence; otherwise reads the last key, looks up its value (zero value `nil`
when absent) and calls `deleteItem(size-1)`. -/
def PopItem (d : DictRef) : Except Unit (Option Item × DictRef) :=
  match d with
  | none => Except.ok (none, none)
  | some dd =>
    if dd.size == 0 then Except.ok (none, some dd)
    else
      match dd.keys.getLast? with
      | none => Except.ok (none, some dd)
      | some key =>
        let value := (mapGet dd.values key.ID).getD GoVal.vnil
        (deleteItem dd (dd.keys.length - 1)).map
          (fun dd' => (some { Key := GoVal.vstr key.Name, Value := value }, some dd'))

/-- `Clear()`: false on an empty dict; else store 0 in the size counter, bump
the version once, and replace the key sequence and value index with fresh
empty ones. -/
def Clear (d : DictRef) : Bool × DictRef :=
  match d with
  | none => (false, none)
  | some dd =>
    if dd.size == 0 then (false, some dd)
    else (true, some { size := 0, version := dd.version + 1, keys := [], values := [] })

/-- `Keys()`: nil when empty; else a slice allocated with the *cached* size
counter, filled positionally from the live key sequence — surplus allocated
slots keep the string zero value `""`, and a sequence longer than the counter
makes the write `keys[i]` panic (`Except.error ()`). -/
def Keys (d : DictRef) : Except Unit (Option (List String)) :=
  match d with
  | none => Except.ok none
  | some dd =>
    if dd.size == 0 then Except.ok none
    else if decide (dd.keys.length ≤ dd.size) then
      Except.ok (some (dd.keys.map Key.Name ++ List.replicate (dd.size - dd.keys.length) ""))
    else Except.error ()

/-- `Values()`: same shape as `Keys()`, reading each value from the index
(zero value `nil` when absent). -/
def Values (d : DictRef) : Except Unit (Option (List GoVal)) :=
  match d with
  | none => Except.ok none
  | some dd =>
    if dd.size == 0 then Except.ok none
    else if decide (dd.keys.length ≤ dd.size) then
      Except.ok (some (dd.keys.map (fun k => (mapGet dd.values k.ID).getD GoVal.vnil)
        ++ List.replicate (dd.size - dd.keys.length) GoVal.vnil))
    else Except.error ()

/-- The snapshot `Items()` copies out of the dict under the read lock:
one `Item{Key: name, Value: value}` per position of the key sequence. -/
def snapshotItems (dd : Dict) : List Item :=
  dd.keys.map (fun k =>
    { Key := GoVal.vstr k.Name, Value := (mapGet dd.values k.ID).getD GoVal.vnil })

/-- `Items()`: the channel is modelled by `Option (List Item)` — `some l` is a
non-nil channel that yields exactly `l` and then closes, `none` would be a nil
channel.  The code allocates the channel first and returns it on every path:
an empty or nil dict gets the channel closed immediately (`some []`),
otherwise the snapshot is captured under the read lock and the producer
goroutine later sends exactly that snapshot. -/
def Items (d : DictRef) : Option (List Item) :=
  match d with
  | none => some []
  | some dd =>
    if dd.size == 0 then some []
    else some (snapshotItems dd)

set_option linter.unusedVariables false in
/-- The producer goroutine of `Items()` ranges over the captured `items`
slice only; it never reads the dictionary again.  `drainItems` models the
consumer draining the channel at a moment when the dictionary has since
moved on to `laterState`: the delivered items are the captured snapshot and
do not depend on `laterState`. -/
def drainItems (snapshot : List Item) (laterState : DictRef) : List Item :=
  snapshot

/-- The dynamic shapes an `Update`/`New` argument can have, mirroring the
type dispatch of `Update` (`*Dict` assertion) and `toIterable` (`Item`
assertion, then `reflect.Kind` switch on Map / Chan / Array / Slice /
default, with `reflect.TypeOf(i) == nil` for a nil interface).  A map input
carries its (implementation-defined) enumeration order and whether its
static key type passes `isKeyType`. -/
inductive Input where
  | dict (other : DictRef) : Input
  | item (it : Item) : Input
  | mapIn (pairs : List (GoVal × GoVal)) (keyTypeOK : Bool) : Input
  | chanIn (xs : List GoVal) : Input
  | sliceIn (xs : List GoVal) : Input
  | scalar (x : GoVal) : Input
  | nilIn : Input

/-- `conv.go`: `toIterable` — the ordered stream of items one input yields.
A slice/array element gets its zero-based position as key; a channel value
and a plain scalar get no key (`nil`); map entries keep the map's own keys,
or nothing when the map's key type fails `isKeyType`.  (`*Dict` arguments
are intercepted by `Update` before `toIterable` and never reach it.) -/
def toIterable : Input → List Item
  | Input.item it => [it]
  | Input.mapIn pairs keyTypeOK =>
      if keyTypeOK then pairs.map (fun p => { Key := p.1, Value := p.2 }) else []
  | Input.chanIn xs => xs.map (fun x => { Key := GoVal.vnil, Value := x })
  | Input.sliceIn xs => xs.enum.map (fun p => { Key := GoVal.vint p.1, Value := p.2 })
  | Input.scalar x => [{ Key := GoVal.vnil, Value := x }]
  | Input.nilIn => []
  | Input.dict _ => []

/-- One argument of `Update`: a `*Dict` argument has its `Items()` stream
`Set` into `d` unchanged; any other argument runs through `toIterable`,
items whose key is the nil interface getting the positional key
`d.Len()` read at the moment of that item's insertion. -/
def updateArg (dd : Dict) (arg : Input) : Dict :=
  match arg with
  | Input.dict other =>
      ((Items other).getD []).foldl (fun acc it => Set (some acc) it.Key it.Value) dd
  | _ =>
      (toIterable arg).foldl
        (fun acc it =>
          Set (some acc) (if it.Key = GoVal.vnil then GoVal.vint acc.size else it.Key)
            it.Value)
        dd

/-- `Update(vargs...)`: false immediately on a nil argument slice, else fold
the arguments left to right and report whether the version moved.  (A nil
receiver with a non-nil argument slice would dereference nil in the source;
`Update` is therefore modelled on a non-nil `Dict`.) -/
def Update (dd : Dict) (vargs : List Input) : Bool × Dict :=
  match vargs with
  | [] => (false, dd)
  | _ =>
    let ver := dd.version
    let dd' := vargs.foldl updateArg dd
    (decide (ver ≠ dd'.version), dd')

/-- `New(vargs...)`: a fresh empty dict fed through `Update`. -/
def New (vargs : List Input) : Dict := (Update emptyDict vargs).2

/-- Go map membership `_, ok := m[k]`. -/
def containsKey (m : List (Nat × GoVal)) (k : Nat) : Bool := (mapGet m k).isSome

/-- The container invariants of the spec (§3): the cached size counter equals
the length of the order sequence, which equals the number of entries of the
value index; no identity occurs twice in the sequence (nor in the index);
and sequence and index hold exactly the same identities. -/
def WF (d : Dict) : Prop :=
  d.size = d.keys.length ∧
  (d.keys.map Key.ID).Nodup ∧
  (d.values.map Prod.fst).Nodup ∧
  (∀ id ∈ d.keys.map Key.ID, id ∈ d.values.map Prod.fst) ∧
  (∀ id ∈ d.values.map Prod.fst, id ∈ d.keys.map Key.ID)

instance (d : Dict) : Decidable (WF d) := by
  unfold WF
  infer_instance

example : WF emptyDict := by decide
example : WF (New [Input.sliceIn [GoVal.vint 1, GoVal.vint 2, GoVal.vint 3]]) := by decide

/-! ## Laws of the association-list map -/

theorem mapGet_mapSet (m : List (Nat × GoVal)) (k k' : Nat) (v : GoVal) :
    mapGet (mapSet m k v) k' = if k' = k then some v else mapGet m k' := by
  induction m with
  | nil =>
    by_cases h : k' = k
    · simp [mapGet, mapSet, h]
    · rw [if_neg h]
      simp only [mapSet, mapGet]
      rw [if_neg (fun hh : k = k' => h hh.symm)]
  | cons e rest ih =>
    obtain ⟨k₀, v₀⟩ := e
    simp only [mapSet]
    by_cases h0 : k₀ = k
    · subst h0
      simp only [if_pos rfl, mapGet]
      by_cases h : k' = k₀
      · simp [h]
      · simp [h, show ¬(k₀ = k') from fun hh => h hh.symm]
    · simp only [if_neg h0, mapGet, ih]
      by_cases h1 : k₀ = k'
      · subst h1
        simp [show ¬(k₀ = k) from h0]
      · simp [h1]

theorem mapGet_mapSet_self (m : List (Nat × GoVal)) (k : Nat) (v : GoVal) :
    mapGet (mapSet m k v) k = some v := by
  simp [mapGet_mapSet]

theorem containsKey_iff_mem (m : List (Nat × GoVal)) (k : Nat) :
    containsKey m k = true ↔ k ∈ m.map Prod.fst := by
  induction m with
  | nil => simp [containsKey, mapGet]
  | cons e rest ih =>
    obtain ⟨k', v'⟩ := e
    by_cases h : k' = k
    · subst h
      simp [containsKey, mapGet]
    · simp only [containsKey, mapGet, if_pos, if_neg h, List.map_cons, List.mem_cons]
      rw [containsKey] at ih
      rw [ih]
      constructor
      · exact Or.inr
      · rintro (h1 | h1)
        · exact absurd h1.symm h
        · exact h1

theorem mapSet_map_fst_of_contains (m : List (Nat × GoVal)) (k : Nat) (v : GoVal)
    (h : containsKey m k = true) :
    (mapSet m k v).map Prod.fst = m.map Prod.fst := by
  induction m with
  | nil => simp [containsKey, mapGet] at h
  | cons e rest ih =>
    obtain ⟨k', v'⟩ := e
    by_cases h0 : k' = k
    · simp [mapSet, h0]
    · simp only [containsKey, mapGet, if_neg h0] at h
      simp [mapSet, if_neg h0, ih h]

theorem mapSet_map_fst_of_not_contains (m : List (Nat × GoVal)) (k : Nat) (v : GoVal)
    (h : containsKey m k = false) :
    (mapSet m k v).map Prod.fst = m.map Prod.fst ++ [k] := by
  induction m with
  | nil => simp [mapSet]
  | cons e rest ih =>
    obtain ⟨k', v'⟩ := e
    by_cases h0 : k' = k
    · simp [containsKey, mapGet, h0] at h
    · simp only [containsKey, mapGet, if_neg h0] at h
      simp [mapSet, if_neg h0, ih h]

theorem mapDel_cons (e : Nat × GoVal) (rest : List (Nat × GoVal)) (k : Nat) :
    mapDel (e :: rest) k =
      if e.1 = k then mapDel rest k else e :: mapDel rest k := by
  by_cases h : e.1 = k <;> simp [mapDel, List.filter_cons, h]

theorem mapDel_map_fst (m : List (Nat × GoVal)) (k : Nat) :
    (mapDel m k).map Prod.fst = (m.map Prod.fst).filter (fun x => x ≠ k) := by
  induction m with
  | nil => simp [mapDel]
  | cons e rest ih =>
    rw [mapDel_cons]
    by_cases h : e.1 = k <;> simp [List.filter_cons, h, ih]

theorem mapGet_mapDel (m : List (Nat × GoVal)) (k k' : Nat) :
    mapGet (mapDel m k) k' = if k' = k then none else mapGet m k' := by
  induction m with
  | nil => simp [mapDel, mapGet]
  | cons e rest ih =>
    obtain ⟨k₀, v₀⟩ := e
    rw [mapDel_cons]
    by_cases h0 : k₀ = k
    · subst h0
      rw [if_pos rfl, ih]
      by_cases h : k' = k₀
      · simp [h]
      · simp [mapGet, h, show ¬(k₀ = k') from fun hh => h hh.symm]
    · rw [if_neg h0]
      simp only [mapGet, ih]
      by_cases h1 : k₀ = k'
      · subst h1
        simp [show ¬(k₀ = k) from h0]
      · simp [h1]

/-! ## Helper lemmas on lists -/

theorem eraseIdx_map {α β : Type} (f : α → β) :
    ∀ (l : List α) (i : Nat), (l.eraseIdx i).map f = (l.map f).eraseIdx i := by
  intro l
  induction l with
  | nil => intro i; simp [List.eraseIdx]
  | cons x xs ih =>
    intro i
    cases i with
    | zero => simp [List.eraseIdx]
    | succ n => simp [List.eraseIdx, ih]

theorem mem_eraseIdx_nodup {l : List Nat} (hn : l.Nodup) {i : Nat} (h : i < l.length)
    (x : Nat) : x ∈ l.eraseIdx i ↔ x ∈ l ∧ x ≠ l.get ⟨i, h⟩ := by
  rw [List.mem_eraseIdx_iff_getElem]
  constructor
  · rintro ⟨j, hj, hji, rfl⟩
    refine ⟨List.getElem_mem hj, fun hx => hji ?_⟩
    exact (List.Nodup.getElem_inj_iff hn).mp hx
  · rintro ⟨hx, hne⟩
    obtain ⟨j, hj, rfl⟩ := List.getElem_of_mem hx
    exact ⟨j, hj, fun hji => hne (by simp [hji]), rfl⟩

theorem findIdx?_spec {α : Type} (p : α → Bool) :
    ∀ (l : List α) (s j : Nat), List.findIdx? p l s = some j →
      s ≤ j ∧ ∃ x, l[j - s]? = some x ∧ p x = true := by
  intro l
  induction l with
  | nil => intro s j h; simp [List.findIdx?_nil] at h
  | cons a as ih =>
    intro s j h
    rw [List.findIdx?_cons] at h
    by_cases hp : p a = true
    · rw [if_pos hp] at h
      obtain rfl : s = j := by simpa using h
      simp [hp]
    · rw [if_neg hp] at h
      obtain ⟨hsj, x, hx, hpx⟩ := ih (s + 1) j h
      refine ⟨by omega, x, ?_, hpx⟩
      have : j - s = (j - (s + 1)) + 1 := by omega
      rw [this]
      simpa using hx

theorem findIdx?_isSome_of_exists {α : Type} (p : α → Bool) :
    ∀ (l : List α) (s : Nat), (∃ x ∈ l, p x = true) →
      (List.findIdx? p l s).isSome = true := by
  intro l
  induction l with
  | nil => rintro s ⟨x, hx, _⟩; simp at hx
  | cons a as ih =>
    rintro s ⟨x, hx, hpx⟩
    rw [List.findIdx?_cons]
    by_cases hp : p a = true
    · simp [hp]
    · rw [if_neg hp]
      rcases List.mem_cons.mp hx with rfl | hx'
      · exact absurd hpx hp
      · exact ih (s + 1) ⟨x, hx', hpx⟩

theorem filter_ne_length_of_nodup {l : List Nat} (hn : l.Nodup) {k : Nat} (hk : k ∈ l) :
    (l.filter (fun x => x ≠ k)).length = l.length - 1 := by
  have he : l.erase k = l.filter (fun x => x ≠ k) := by
    rw [List.Nodup.erase_eq_filter hn]
    congr 1
    funext x
    by_cases h : x = k <;> simp [h, bne]
  rw [← he, List.length_erase_of_mem hk]

/-! ## Preservation of the container invariants -/

theorem WF_Set (d : Dict) (hwf : WF d) (key value : GoVal) :
    WF (Set (some d) key value) := by
  obtain ⟨hsz, hndk, hndv, hkv, hvk⟩ := hwf
  cases hmk : MakeKey key with
  | none =>
    simp only [Set, hmk]
    exact ⟨hsz, hndk, hndv, hkv, hvk⟩
  | some k =>
    cases hm : mapGet d.values k.ID with
    | some curr =>
      have hc : containsKey d.values k.ID = true := by simp [containsKey, hm]
      have hfst := mapSet_map_fst_of_contains d.values k.ID value hc
      simp only [Set, hmk, hm]
      exact ⟨hsz, hndk, by rw [hfst]; exact hndv,
        fun id hid => by rw [hfst]; exact hkv id hid,
        fun id hid => by rw [hfst] at hid; exact hvk id hid⟩
    | none =>
      have hc : containsKey d.values k.ID = false := by simp [containsKey, hm]
      have hfst := mapSet_map_fst_of_not_contains d.values k.ID value hc
      have hknotin : k.ID ∉ d.values.map Prod.fst := by
        intro hmem
        rw [← containsKey_iff_mem] at hmem
        rw [hc] at hmem
        cases hmem
      have hknotk : k.ID ∉ d.keys.map Key.ID := fun hmem => hknotin (hkv _ hmem)
      simp only [Set, hmk, hm]
      refine ⟨?_, ?_, ?_, ?_, ?_⟩
      · simp [hsz]
      · rw [List.map_append]
        simp only [List.map_cons, List.map_nil]
        rw [List.nodup_append]
        exact ⟨hndk, List.nodup_singleton _, by simpa using hknotk⟩
      · rw [hfst, List.nodup_append]
        exact ⟨hndv, List.nodup_singleton _, by simpa using hknotin⟩
      · intro id hid
        rw [hfst, List.mem_append]
        rw [List.map_append, List.mem_append] at hid
        rcases hid with hid | hid
        · exact Or.inl (hkv _ hid)
        · exact Or.inr (by simpa using hid)
      · intro id hid
        rw [List.map_append, List.mem_append]
        rw [hfst, List.mem_append] at hid
        rcases hid with hid | hid
        · exact Or.inl (hvk _ hid)
        · exact Or.inr (by simpa using hid)

theorem deleteItem_ok (d : Dict) (hwf : WF d) (idx : Nat) (h : idx < d.keys.length) :
    ∃ d', deleteItem d idx = Except.ok d' ∧ WF d' ∧
      d'.keys = d.keys.eraseIdx idx ∧
      d'.size = d.keys.length - 1 ∧
      d'.version = d.version + 1 ∧
      d'.values = mapDel d.values (d.keys.get ⟨idx, h⟩).ID := by
  obtain ⟨hsz, hndk, hndv, hkv, hvk⟩ := hwf
  have hszne : (d.size == 0) = false := by
    simp only [beq_eq_false_iff_ne, ne_eq, hsz]
    omega
  have hle : decide (d.size ≤ idx) = false := by
    simp only [decide_eq_false_iff_not, not_le, hsz]
    omega
  have hget : d.keys.get? idx = some (d.keys.get ⟨idx, h⟩) := List.get?_eq_get h
  refine ⟨{ size := d.keys.length - 1, version := d.version + 1,
            keys := d.keys.eraseIdx idx,
            values := mapDel d.values (d.keys.get ⟨idx, h⟩).ID }, ?_, ?_, rfl, rfl, rfl, rfl⟩
  · rw [deleteItem, hszne, hle, hget]
    rfl
  set kid := (d.keys.get ⟨idx, h⟩).ID with hkid
  have hidx' : idx < (d.keys.map Key.ID).length := by simpa using h
  have hgetmap : (d.keys.map Key.ID).get ⟨idx, hidx'⟩ = kid := by
    simp [hkid]
  have hkeys' : (d.keys.eraseIdx idx).map Key.ID = (d.keys.map Key.ID).eraseIdx idx :=
    eraseIdx_map Key.ID d.keys idx
  have hmemk : ∀ x, x ∈ (d.keys.eraseIdx idx).map Key.ID ↔
      x ∈ d.keys.map Key.ID ∧ x ≠ kid := by
    intro x
    rw [hkeys', mem_eraseIdx_nodup hndk hidx', hgetmap]
  have hmemv : ∀ x, x ∈ (mapDel d.values kid).map Prod.fst ↔
      x ∈ d.values.map Prod.fst ∧ x ≠ kid := by
    intro x
    rw [mapDel_map_fst, List.mem_filter]
    simp
  refine ⟨?_, ?_, ?_, ?_, ?_⟩
  · simp [List.length_eraseIdx, h]
  · rw [hkeys']
    exact ((d.keys.map Key.ID).eraseIdx_sublist idx).nodup hndk
  · rw [mapDel_map_fst]
    exact (List.filter_sublist _).nodup hndv
  · intro id hid
    rw [hmemk] at hid
    rw [hmemv]
    exact ⟨hkv _ hid.1, hid.2⟩
  · intro id hid
    rw [hmemv] at hid
    rw [hmemk]
    exact ⟨hvk _ hid.1, hid.2⟩

theorem Del_ok (d : Dict) (hwf : WF d) (key : GoVal) :
    ∃ b d', Del (some d) key = Except.ok (b, some d') ∧ WF d' ∧
      (b = false → d' = d) ∧
      (b = true → d'.version = d.version + 1 ∧ d'.keys.length = d.keys.length - 1) := by
  rcases hgk : GetKeyID (some d) key with ⟨id, found⟩
  cases found with
  | false =>
    refine ⟨false, d, ?_, hwf, fun _ => rfl, by simp⟩
    rw [Del, hgk]
  | true =>
    have hsz0 : (d.size == 0) = false := by
      by_contra hne
      have : (d.size == 0) = true := by
        cases hb : (d.size == 0) <;> simp [hb] at hne ⊢
      rw [GetKeyID] at hgk
      rw [this] at hgk
      simp at hgk
    obtain ⟨k, hmk, hkid, hmem⟩ :
        ∃ k, MakeKey key = some k ∧ k.ID = id ∧ (mapGet d.values id).isSome = true := by
      have h1 := hgk
      rw [GetKeyID] at h1
      rw [if_neg (by simp [hsz0])] at h1
      cases hmk : MakeKey key with
      | none => rw [hmk] at h1; simp at h1
      | some k =>
        rw [hmk] at h1
        simp only [Prod.mk.injEq] at h1
        exact ⟨k, rfl, h1.1, h1.1 ▸ h1.2⟩
    obtain ⟨hsz, hndk, hndv, hkv, hvk⟩ := hwf
    have hin : id ∈ d.values.map Prod.fst := by
      rw [← containsKey_iff_mem]
      simpa [containsKey] using hmem
    have hkeymem : id ∈ d.keys.map Key.ID := hvk _ hin
    obtain ⟨k', hk'mem, hk'id⟩ : ∃ k' ∈ d.keys, k'.ID = id := by
      simpa using hkeymem
    have hfind : (List.findIdx? (fun k0 => k0.ID == id) d.keys).isSome = true :=
      findIdx?_isSome_of_exists _ d.keys 0 ⟨k', hk'mem, by simp [hk'id]⟩
    obtain ⟨j, hj⟩ := Option.isSome_iff_exists.mp hfind
    obtain ⟨-, x, hx, hpx⟩ := findIdx?_spec _ d.keys 0 j hj
    have hjlt : j < d.keys.length := by
      by_contra hge
      rw [List.getElem?_eq_none (by omega)] at hx
      cases hx
    have hxj : d.keys[j]? = some x := by simpa using hx
    have hgetj : d.keys.get ⟨j, hjlt⟩ = x := by
      have h3 : some (d.keys[j]) = some x := by
        rw [← List.getElem?_eq_getElem hjlt]
        exact hxj
      simpa [List.get_eq_getElem] using Option.some.inj h3
    have hxid : x.ID = id := by simpa using hpx
    obtain ⟨d', hdel, hwf', hk1, hs1, hv1, hval1⟩ :=
      deleteItem_ok d ⟨hsz, hndk, hndv, hkv, hvk⟩ j hjlt
    refine ⟨true, d', ?_, hwf', by simp,
      fun _ => ⟨hv1, by rw [hk1]; simp [List.length_eraseIdx, hjlt, hs1]⟩⟩
    simp only [Del, hgk, hj, Option.getD_some]
    rw [List.get?_eq_get hjlt, hgetj]
    simp [Nat.not_le.mpr hjlt, hxid, hdel, Except.map]

theorem WF_Clear (d : Dict) (hwf : WF d) :
    ∀ b d', Clear (some d) = (b, some d') → WF d' := by
  intro b d' h
  simp only [Clear] at h
  by_cases hb : (d.size == 0) = true
  · rw [if_pos hb] at h
    obtain ⟨-, h2⟩ := Prod.mk.injEq .. ▸ h
    cases Option.some.inj h2
    exact hwf
  · rw [if_neg hb] at h
    obtain ⟨-, h2⟩ := Prod.mk.injEq .. ▸ h
    cases Option.some.inj h2
    exact ⟨rfl, List.nodup_nil, List.nodup_nil, by simp, by simp⟩

theorem WF_PopItem (d : Dict) (hwf : WF d) :
    ∀ it d', PopItem (some d) = Except.ok (it, some d') → WF d' := by
  intro it d' h
  simp only [PopItem] at h
  by_cases hb : (d.size == 0) = true
  · rw [if_pos hb] at h
    obtain ⟨-, h2⟩ := Prod.mk.injEq .. ▸ Except.ok.inj h
    cases Option.some.inj h2
    exact hwf
  · rw [if_neg hb] at h
    cases hl : d.keys.getLast? with
    | none =>
      rw [hl] at h
      obtain ⟨-, h2⟩ := Prod.mk.injEq .. ▸ Except.ok.inj h
      cases Option.some.inj h2
      exact hwf
    | some key =>
      rw [hl] at h
      have hne : d.keys ≠ [] := by
        intro hnil
        rw [hnil] at hl
        cases hl
      have hlt : d.keys.length - 1 < d.keys.length := by
        cases hk : d.keys with
        | nil => exact absurd hk hne
        | cons a as => simp [hk]
      obtain ⟨dd', hdel, hwf', -, -, -, -⟩ := deleteItem_ok d hwf _ hlt
      rw [hdel] at h
      simp only [Except.map] at h
      obtain ⟨-, h2⟩ := Prod.mk.injEq .. ▸ Except.ok.inj h
      cases Option.some.inj h2
      exact hwf'

theorem WF_foldl_set (f : Dict → Item → GoVal) :
    ∀ (items : List Item) (dd : Dict), WF dd →
      WF (items.foldl (fun acc it => Set (some acc) (f acc it) it.Value) dd) := by
  intro items
  induction items with
  | nil => intro dd h; exact h
  | cons it rest ih =>
    intro dd h
    exact ih _ (WF_Set dd h _ _)

theorem WF_updateArg (dd : Dict) (arg : Input) (h : WF dd) : WF (updateArg dd arg) := by
  cases arg with
  | dict other => exact WF_foldl_set (fun _ it => it.Key) _ dd h
  | item it => exact WF_foldl_set (fun acc it =>
      if it.Key = GoVal.vnil then GoVal.vint acc.size else it.Key) _ dd h
  | mapIn pairs ok => exact WF_foldl_set (fun acc it =>
      if it.Key = GoVal.vnil then GoVal.vint acc.size else it.Key) _ dd h
  | chanIn xs => exact WF_foldl_set (fun acc it =>
      if it.Key = GoVal.vnil then GoVal.vint acc.size else it.Key) _ dd h
  | sliceIn xs => exact WF_foldl_set (fun acc it =>
      if it.Key = GoVal.vnil then GoVal.vint acc.size else it.Key) _ dd h
  | scalar x => exact WF_foldl_set (fun acc it =>
      if it.Key = GoVal.vnil then GoVal.vint acc.size else it.Key) _ dd h
  | nilIn => exact WF_foldl_set (fun acc it =>
      if it.Key = GoVal.vnil then GoVal.vint acc.size else it.Key) _ dd h

theorem WF_foldl_updateArg :
    ∀ (vargs : List Input) (dd : Dict), WF dd → WF (vargs.foldl updateArg dd) := by
  intro vargs
  induction vargs with
  | nil => intro dd h; exact h
  | cons a rest ih => intro dd h; exact ih _ (WF_updateArg dd a h)

theorem WF_Update (dd : Dict) (vargs : List Input) (h : WF dd) :
    WF (Update dd vargs).2 := by
  cases vargs with
  | nil => exact h
  | cons a rest => exact WF_foldl_updateArg (a :: rest) dd h

theorem WF_emptyDict : WF emptyDict :=
  ⟨rfl, List.nodup_nil, List.nodup_nil, by simp [emptyDict], by simp [emptyDict]⟩

theorem WF_New (vargs : List Input) : WF (New vargs) :=
  WF_Update emptyDict vargs WF_emptyDict

theorem WF_Pop (d : Dict) (hwf : WF d) (key : GoVal) (alt : List GoVal) :
    ∀ v d', Pop (some d) key alt = Except.ok (v, some d') → WF d' := by
  intro v d' h
  rw [Pop] at h
  by_cases hv : Get (some d) key [GoVal.vslice alt] ≠ GoVal.vnil
  · rw [if_pos hv] at h
    obtain ⟨b, dd', hdeleq, hwf', -, -⟩ := Del_ok d hwf key
    rw [hdeleq] at h
    simp only [Except.map] at h
    obtain ⟨-, h2⟩ := Prod.mk.injEq .. ▸ Except.ok.inj h
    cases Option.some.inj h2
    exact hwf'
  · rw [if_neg hv] at h
    obtain ⟨-, h2⟩ := Prod.mk.injEq .. ▸ Except.ok.inj h
    cases Option.some.inj h2
    exact hwf

/-! ## Lookup after update -/

theorem size_ne_zero_of_contains (d : Dict) (hwf : WF d) {id : Nat}
    (h : containsKey d.values id = true) : d.size ≠ 0 := by
  obtain ⟨hsz, -, -, -, hvk⟩ := hwf
  rw [containsKey_iff_mem] at h
  have := hvk _ h
  intro h0
  rw [hsz] at h0
  rw [List.length_eq_zero] at h0
  rw [h0] at this
  simp at this

theorem get_after_set (d : Dict) (hwf : WF d) (x y : GoVal) (k : Key)
    (hx : MakeKey x = some k) (hy : MakeKey y = some k) (v : GoVal) (alt : List GoVal) :
    Get (some (Set (some d) x v)) y alt = v := by
  cases hm : mapGet d.values k.ID with
  | some curr =>
    have hsz : d.size ≠ 0 :=
      size_ne_zero_of_contains d hwf
        (show containsKey d.values k.ID = true by simp [containsKey, hm])
    simp only [Set, hx, hm, Get, IsEmpty, GetKeyID, hy]
    simp [hsz, mapGet_mapSet_self]
  | none =>
    simp only [Set, hx, hm, Get, IsEmpty, GetKeyID, hy]
    simp [mapGet_mapSet_self]

theorem MakeKey_ID_eq (x : GoVal) (k : Key) (h : MakeKey x = some k) :
    k.ID = hashName k.Name := by
  rw [MakeKey] at h
  by_cases hv : isValidKeyType x
  · rw [if_neg (by simp [hv])] at h
    simp only at h
    by_cases he : toString x = ""
    · rw [if_pos he] at h
      cases h
    · rw [if_neg he] at h
      cases Option.some.inj h
      rfl
  · rw [if_pos (by simp [hv])] at h
    cases h

/-- The container invariants exactly as the spec states them: sequence length
equals the size counter equals the number of value-index entries, no
duplicate identity in the sequence, and the sequence and the index carry the
same identities. -/
def Invariant (d : Dict) : Prop :=
  d.keys.length = d.size ∧
  d.values.length = d.size ∧
  (d.keys.map Key.ID).Nodup ∧
  (∀ id ∈ d.keys.map Key.ID, id ∈ d.values.map Prod.fst) ∧
  (∀ id ∈ d.values.map Prod.fst, id ∈ d.keys.map Key.ID)

theorem WF.invariant {d : Dict} (hwf : WF d) : Invariant d := by
  obtain ⟨hsz, hndk, hndv, hkv, hvk⟩ := hwf
  have hperm : (d.values.map Prod.fst).Perm (d.keys.map Key.ID) :=
    (List.perm_ext_iff_of_nodup hndv hndk).mpr (fun a => ⟨hvk a, hkv a⟩)
  have hlen : d.values.length = d.keys.length := by
    have h2 := hperm.length_eq
    simpa using h2
  exact ⟨hsz.symm, by rw [hlen, hsz], hndk, hkv, hvk⟩

/-! ## The claims -/

/-- C1: for every key `k` accepted by the key codec (`MakeKey` succeeds) and
every value `v`, `Set(k, v)` on a (well-formed) container followed
immediately by `Get(k)` on the same container returns `v`. -/
theorem C1_set_then_get (d : Dict) (key value : GoVal) (hwf : WF d)
    (hk : (MakeKey key).isSome = true) :
    Get (some (Set (some d) key value)) key [] = value := by
  obtain ⟨k, hk'⟩ := Option.isSome_iff_exists.mp hk
  exact get_after_set d hwf key key k hk' hk' value []

/-- Witness for C1 at the concrete input `d = empty`, `k = "a"`, `v = 7`. -/
theorem C1_set_then_get_witness :
    WF emptyDict ∧ (MakeKey (GoVal.vstr "a")).isSome = true ∧
    Get (some (Set (some emptyDict) (GoVal.vstr "a") (GoVal.vint 7)))
      (GoVal.vstr "a") [] = GoVal.vint 7 :=
  ⟨by decide, by decide,
    C1_set_then_get emptyDict (GoVal.vstr "a") (GoVal.vint 7) (by decide) (by decide)⟩

/-- C3: the integer key `123` and the string key `"123"` resolve to the same
identity (equal ID and Name); setting either and reading via the other
returns the value just stored; and in general two accepted inputs with equal
canonical text produce the same identity. -/
theorem C3_key_unification :
    (MakeKey (GoVal.vint 123) = MakeKey (GoVal.vstr "123") ∧
      (MakeKey (GoVal.vint 123)).isSome = true) ∧
    (∀ (d : Dict) (v : GoVal), WF d →
      Get (some (Set (some d) (GoVal.vint 123) v)) (GoVal.vstr "123") [] = v ∧
      Get (some (Set (some d) (GoVal.vstr "123") v)) (GoVal.vint 123) [] = v) ∧
    (∀ (x y : GoVal) (kx ky : Key), MakeKey x = some kx → MakeKey y = some ky →
      kx.Name = ky.Name → kx = ky) := by
  refine ⟨⟨by decide, by decide⟩, ?_, ?_⟩
  · intro d v hwf
    exact ⟨get_after_set d hwf _ _ { ID := hashName "123", Name := "123" }
        (by decide) (by decide) v [],
      get_after_set d hwf _ _ { ID := hashName "123", Name := "123" }
        (by decide) (by decide) v []⟩
  · intro x y kx ky hx hy hname
    have h1 := MakeKey_ID_eq x kx hx
    have h2 := MakeKey_ID_eq y ky hy
    cases kx with
    | mk idx namex =>
      cases ky with
      | mk idy namey =>
        simp only at h1 h2 hname
        subst hname
        simp [h1, h2]

/-- Witness for C3 at the concrete input `d = empty`, `v = 9`. -/
theorem C3_key_unification_witness :
    WF emptyDict ∧
    Get (some (Set (some emptyDict) (GoVal.vint 123) (GoVal.vint 9)))
      (GoVal.vstr "123") [] = GoVal.vint 9 :=
  ⟨by decide, (C3_key_unification.2.1 emptyDict (GoVal.vint 9) (by decide)).1⟩

/-- C6 counterexample: on an empty container with an alternate given and the
key absent, `Get` returns nil, not the alternate — the `IsEmpty` early
return fires before the alternate is consulted, so the claim fails at
`Get(empty, "x", 5)`. -/
theorem C6_counterexample :
    Get (some (New [])) (GoVal.vstr "x") [GoVal.vint 5] = GoVal.vnil ∧
    Get (some (New [])) (GoVal.vstr "x") [GoVal.vint 5] ≠ GoVal.vint 5 := by
  exact ⟨by decide, by decide⟩

/-- C6 amended: on a nil or empty container `Get` always returns nil, even
when an alternate is given; on a non-empty container it returns the stored
value when the resolved identity is present, otherwise the first alternate
when one is given, otherwise nil.  (`Get` produces no new container state in
the embedding: it never mutates.) -/
theorem C6_get_amended (d? : DictRef) (key : GoVal) (alt : List GoVal) :
    (IsEmpty d? = true → Get d? key alt = GoVal.vnil) ∧
    (∀ dd, d? = some dd → dd.size ≠ 0 →
      (∀ k v, MakeKey key = some k → mapGet dd.values k.ID = some v →
        Get d? key alt = v) ∧
      ((∀ k, MakeKey key = some k → mapGet dd.values k.ID = none) →
        Get d? key alt = alt.headD GoVal.vnil)) := by
  constructor
  · intro h
    simp only [Get]
    rw [if_pos h]
  · rintro dd rfl hsz
    have hempty : IsEmpty (some dd) = false := by
      simp [IsEmpty, hsz]
    constructor
    · intro k v hmk hget
      simp only [Get, hempty]
      simp only [Bool.false_eq_true, if_false, GetKeyID, hmk]
      rw [if_neg (show ¬((dd.size == 0) = true) by simp [hsz])]
      simp [hget]
    · intro habs
      simp only [Get, hempty]
      simp only [Bool.false_eq_true, if_false, GetKeyID]
      cases hmk : MakeKey key with
      | none =>
        simp only [if_neg (by simp [hsz] : ¬(dd.size == 0) = true)]
        cases alt <;> simp [List.headD]
      | some k =>
        have hget := habs k hmk
        simp only [if_neg (by simp [hsz] : ¬(dd.size == 0) = true), hget]
        cases alt <;> simp [List.headD]

/-- Witness for C6's amended claim at concrete inputs: a one-entry container
returns the stored value for a present key and the alternate for an absent
key, and the empty container returns nil. -/
theorem C6_get_amended_witness :
    Get (some (Set (some emptyDict) (GoVal.vstr "a") (GoVal.vint 1)))
      (GoVal.vstr "a") [GoVal.vint 9] = GoVal.vint 1 ∧
    Get (some (Set (some emptyDict) (GoVal.vstr "a") (GoVal.vint 1)))
      (GoVal.vstr "b") [GoVal.vint 9] = GoVal.vint 9 ∧
    Get (some emptyDict) (GoVal.vstr "a") [GoVal.vint 9] = GoVal.vnil := by
  refine ⟨?_, ?_, ?_⟩
  · exact (C6_get_amended (some (Set (some emptyDict) (GoVal.vstr "a") (GoVal.vint 1)))
      (GoVal.vstr "a") [GoVal.vint 9]).2 _ rfl (by decide)
      |>.1 { ID := hashName "a", Name := "a" } (GoVal.vint 1) (by decide) (by decide)
  · exact (C6_get_amended (some (Set (some emptyDict) (GoVal.vstr "a") (GoVal.vint 1)))
      (GoVal.vstr "b") [GoVal.vint 9]).2 _ rfl (by decide)
      |>.2 (by
        intro k hk
        have hb : MakeKey (GoVal.vstr "b") =
            some { ID := hashName "b", Name := "b" } := by decide
        rw [hb] at hk
        cases Option.some.inj hk
        decide)
  · exact (C6_get_amended (some emptyDict) (GoVal.vstr "a") [GoVal.vint 9]).1 (by decide)

/-- C10: `Items()` on an empty or nil container returns a non-nil channel
that is already closed and yields no items — the code never returns a nil
channel (its comment claiming "nil if the dict is empty" notwithstanding). -/
theorem C10_items_nonnil (d? : DictRef) :
    (Items d?).isSome = true ∧ (IsEmpty d? = true → Items d? = some []) := by
  constructor
  · cases d? with
    | none => rfl
    | some dd =>
      rw [Items]
      by_cases h : (dd.size == 0) = true
      · rw [if_pos h]; rfl
      · rw [if_neg h]; rfl
  · intro h
    cases d? with
    | none => rfl
    | some dd =>
      rw [Items, if_pos (by simpa [IsEmpty] using h)]

/-- Witness for C10 at the nil container and the empty container. -/
theorem C10_items_nonnil_witness :
    Items none = some [] ∧ Items (some emptyDict) = some [] :=
  ⟨(C10_items_nonnil none).2 (by decide),
   (C10_items_nonnil (some emptyDict)).2 (by decide)⟩

/-- C2: the version counter increases by exactly one after an insert of a new
identity, after a successful removal, after a `Clear` of a non-empty
container (by one regardless of how many entries were removed), and after
replacing an existing key's value with a structurally different value
(`reflect.DeepEqual` false); it stays constant when an existing key's value
is replaced with a structurally equal value. -/
theorem C2_version (d : Dict) (key value : GoVal) (k : Key) :
    (MakeKey key = some k → mapGet d.values k.ID = none →
      (Set (some d) key value).version = d.version + 1) ∧
    (∀ curr, MakeKey key = some k → mapGet d.values k.ID = some curr →
      value ≠ curr → (Set (some d) key value).version = d.version + 1) ∧
    (∀ curr, MakeKey key = some k → mapGet d.values k.ID = some curr →
      value = curr → (Set (some d) key value).version = d.version) ∧
    (∀ d', WF d → Del (some d) key = Except.ok (true, some d') →
      d'.version = d.version + 1) ∧
    (d.size ≠ 0 → Clear (some d) =
      (true, some { size := 0, version := d.version + 1, keys := [], values := [] })) := by
  refine ⟨?_, ?_, ?_, ?_, ?_⟩
  · intro hmk hm
    simp [Set, hmk, hm]
  · intro curr hmk hm hne
    have hbeq : GoVal.beq value curr = false := by
      cases hb : GoVal.beq value curr with
      | false => rfl
      | true => exact absurd ((GoVal.beq_iff value curr).mp hb) hne
    simp [Set, hmk, hm, hbeq]
  · intro curr hmk hm heq
    have hbeq : GoVal.beq value curr = true := (GoVal.beq_iff value curr).mpr heq
    simp [Set, hmk, hm, hbeq]
  · intro d' hwf hdel
    obtain ⟨b, dd', heq, -, -, htrue⟩ := Del_ok d hwf key
    rw [heq] at hdel
    obtain ⟨h1, h2⟩ := Prod.mk.injEq .. ▸ Except.ok.inj hdel
    cases Option.some.inj h2
    exact (htrue h1).1
  · intro hsz
    simp [Clear, hsz]

/-- Witness for C2: a concrete run exercising insert, unequal replacement,
equal replacement, removal and clear on small containers. -/
theorem C2_version_witness :
    (Set (some emptyDict) (GoVal.vstr "a") (GoVal.vint 1)).version = emptyDict.version + 1 ∧
    (Set (some (Set (some emptyDict) (GoVal.vstr "a") (GoVal.vint 1)))
        (GoVal.vstr "a") (GoVal.vint 2)).version =
      (Set (some emptyDict) (GoVal.vstr "a") (GoVal.vint 1)).version + 1 ∧
    (Set (some (Set (some emptyDict) (GoVal.vstr "a") (GoVal.vint 1)))
        (GoVal.vstr "a") (GoVal.vint 1)).version =
      (Set (some emptyDict) (GoVal.vstr "a") (GoVal.vint 1)).version ∧
    ({ size := 0, version := 2, keys := [], values := [] } : Dict).version =
      (Set (some emptyDict) (GoVal.vstr "a") (GoVal.vint 1)).version + 1 ∧
    Clear (some (Set (some emptyDict) (GoVal.vstr "a") (GoVal.vint 1))) =
      (true, some { size := 0, version := 2, keys := [], values := [] }) := by
  refine ⟨?_, ?_, ?_, ?_, ?_⟩
  · exact (C2_version emptyDict (GoVal.vstr "a") (GoVal.vint 1)
      { ID := hashName "a", Name := "a" }).1 (by decide) (by decide)
  · exact (C2_version (Set (some emptyDict) (GoVal.vstr "a") (GoVal.vint 1))
      (GoVal.vstr "a") (GoVal.vint 2) { ID := hashName "a", Name := "a" }).2.1
      (GoVal.vint 1) (by decide) (by decide) (by decide)
  · exact (C2_version (Set (some emptyDict) (GoVal.vstr "a") (GoVal.vint 1))
      (GoVal.vstr "a") (GoVal.vint 1) { ID := hashName "a", Name := "a" }).2.2.1
      (GoVal.vint 1) (by decide) (by decide) rfl
  · exact (C2_version (Set (some emptyDict) (GoVal.vstr "a") (GoVal.vint 1))
      (GoVal.vstr "a") (GoVal.vint 1) { ID := hashName "a", Name := "a" }).2.2.2.1
      { size := 0, version := 2, keys := [], values := [] } (by decide) (by decide)
  · exact (C2_version (Set (some emptyDict) (GoVal.vstr "a") (GoVal.vint 1))
      (GoVal.vstr "a") (GoVal.vint 1) { ID := hashName "a", Name := "a" }).2.2.2.2
      (by decide)

/-- C7: after every public operation (`Set`, `Del`, `Pop`, `PopItem`,
`Clear`, `Update`) run sequentially from a well-formed container, the
container satisfies the invariants: order-sequence length = size counter =
number of value-index entries, no duplicate identity in the sequence, and
the sequence and the index carry exactly the same identities. -/
theorem C7_invariants (d : Dict) (key value : GoVal) (alt : List GoVal)
    (vargs : List Input) (hwf : WF d) :
    Invariant (Set (some d) key value) ∧
    (∀ b d', Del (some d) key = Except.ok (b, some d') → Invariant d') ∧
    (∀ v d', Pop (some d) key alt = Except.ok (v, some d') → Invariant d') ∧
    (∀ it d', PopItem (some d) = Except.ok (it, some d') → Invariant d') ∧
    (∀ b d', Clear (some d) = (b, some d') → Invariant d') ∧
    Invariant (Update d vargs).2 := by
  refine ⟨(WF_Set d hwf key value).invariant, ?_, ?_, ?_, ?_,
    (WF_Update d vargs hwf).invariant⟩
  · intro b d' h
    obtain ⟨b₀, dd₀, heq, hwf₀, -, -⟩ := Del_ok d hwf key
    rw [heq] at h
    obtain ⟨-, h2⟩ := Prod.mk.injEq .. ▸ Except.ok.inj h
    cases Option.some.inj h2
    exact hwf₀.invariant
  · intro v d' h
    exact (WF_Pop d hwf key alt v d' h).invariant
  · intro it d' h
    exact (WF_PopItem d hwf it d' h).invariant
  · intro b d' h
    exact (WF_Clear d hwf b d' h).invariant

/-- Witness for C7 at concrete inputs: the invariants hold after a `Set`, a
successful `Del` and a `Clear` on small containers. -/
theorem C7_invariants_witness :
    Invariant (Set (some emptyDict) (GoVal.vstr "a") (GoVal.vint 1)) ∧
    Invariant { size := 0, version := 2, keys := [], values := [] } ∧
    Invariant (Update emptyDict [Input.sliceIn [GoVal.vint 1, GoVal.vint 2]]).2 := by
  refine ⟨?_, ?_, ?_⟩
  · exact (C7_invariants emptyDict (GoVal.vstr "a") (GoVal.vint 1) [] []
      (by decide)).1
  · exact (C7_invariants (Set (some emptyDict) (GoVal.vstr "a") (GoVal.vint 1))
      (GoVal.vstr "a") (GoVal.vint 1) [] [] (by decide)).2.2.2.2.1 true
      { size := 0, version := 2, keys := [], values := [] } (by decide)
  · exact (C7_invariants emptyDict (GoVal.vstr "a") (GoVal.vint 1) []
      [Input.sliceIn [GoVal.vint 1, GoVal.vint 2]] (by decide)).2.2.2.2.2

/-- C8: a container built from the sequence `[1,2,3]` has
`Keys() == ["0","1","2"]` and `Values() == [1,2,3]`, positionally aligned;
and items yielded with no key — scalars and channel/stream values — are
assigned the positional key `d.Len()` read at the moment of that item's
insertion, so positional keys continue the container's existing numbering
instead of restarting at zero. -/
theorem C8_positional_keys :
    (Keys (some (New [Input.sliceIn [GoVal.vint 1, GoVal.vint 2, GoVal.vint 3]])) =
        Except.ok (some ["0", "1", "2"]) ∧
      Values (some (New [Input.sliceIn [GoVal.vint 1, GoVal.vint 2, GoVal.vint 3]])) =
        Except.ok (some [GoVal.vint 1, GoVal.vint 2, GoVal.vint 3])) ∧
    (∀ (d : Dict) (x : GoVal),
      updateArg d (Input.scalar x) = Set (some d) (GoVal.vint d.size) x) ∧
    (∀ (d : Dict) (xs : List GoVal),
      updateArg d (Input.chanIn xs) =
        xs.foldl (fun acc x => Set (some acc) (GoVal.vint acc.size) x) d) := by
  refine ⟨⟨by decide, by decide⟩, ?_, ?_⟩
  · intro d x
    simp [updateArg, toIterable]
  · intro d xs
    simp only [updateArg, toIterable, List.foldl_map]
    simp

/-- A drifted container state for C4: the cached size counter (1) disagrees
with the live order sequence (length 2), the situation §7 of the spec calls
out (counter reset without a matching sequence update or vice versa). -/
def dDrift : Dict :=
  { size := 1, version := 0,
    keys := [{ ID := hashName "a", Name := "a" }, { ID := hashName "b", Name := "b" }],
    values := [(hashName "a", GoVal.vint 1), (hashName "b", GoVal.vint 2)] }

/-- A second drifted state for C4: counter 0 but one live entry. -/
def dDriftZero : Dict :=
  { size := 0, version := 0,
    keys := [{ ID := hashName "a", Name := "a" }],
    values := [(hashName "a", GoVal.vint 1)] }

/-- C4 (failing evaluation): `PopItem` never panics, but its checks are NOT
computed purely from the live order sequence: on `dDrift` (counter 1,
sequence length 2) it returns the item for key "b" yet leaves the container
completely unchanged, because `deleteItem`'s bound `idx >= d.Len()` trusts
the cached counter; and on `dDriftZero` (counter 0, one live entry) the
`IsEmpty` gate — also counter-based — makes it return nil although the
sequence is non-empty. -/
theorem C4_popitem_drift :
    PopItem (some dDrift) =
      Except.ok (some { Key := GoVal.vstr "b", Value := GoVal.vint 2 }, some dDrift) ∧
    dDrift.keys.length = 2 ∧
    PopItem (some dDriftZero) = Except.ok (none, some dDriftZero) ∧
    dDriftZero.keys ≠ [] ∧
    (∀ (d? : DictRef) (e : Unit), PopItem d? ≠ Except.error e) := by
  refine ⟨by decide, by decide, by decide, by decide, ?_⟩
  intro d? e h
  cases d? with
  | none => cases h
  | some dd =>
    simp only [PopItem] at h
    by_cases hb : (dd.size == 0) = true
    · rw [if_pos hb] at h
      cases h
    · rw [if_neg hb] at h
      cases hl : dd.keys.getLast? with
      | none =>
        rw [hl] at h
        cases h
      | some key =>
        rw [hl] at h
        have hne : dd.keys ≠ [] := by
          intro hnil
          rw [hnil] at hl
          cases hl
        have hlen : dd.keys.length ≠ 0 := fun h0 => hne (List.length_eq_zero.mp h0)
        rw [deleteItem] at h
        by_cases hg : (dd.size == 0 || decide (dd.size ≤ dd.keys.length - 1)) = true
        · rw [if_pos hg] at h
          simp [Except.map] at h
        · rw [if_neg hg] at h
          have hlt : dd.keys.length - 1 < dd.keys.length :=
            Nat.sub_lt (Nat.pos_of_ne_zero hlen) one_pos
          rw [List.get?_eq_get hlt] at h
          simp [Except.map] at h

/-- The container `{"a": 1}` used for C5's failing evaluation. -/
def dPop : Dict := Set (some emptyDict) (GoVal.vstr "a") (GoVal.vint 1)

/-- The container `{"a": nil}` used for C5's failing evaluation. -/
def dPopNil : Dict := Set (some emptyDict) (GoVal.vstr "a") GoVal.vnil

/-- C5 (failing evaluation): `Pop` forwards its variadic `alt` slice to `Get`
as one boxed argument (`d.Get(key, alt)`, not `d.Get(key, alt...)`).  On the
container `{"a": 1}`, `Pop("b", 7)` therefore returns the boxed slice
`[]interface{}{7}` — not the `7` that `Get("b", 7)` returns; `Pop("b")`
with no alternate returns the boxed nil slice instead of nil; and on
`{"a": nil}` the stored nil makes `Pop("a")` skip the `Del`, leaving the
entry in place although the key is present. -/
theorem C5_pop_boxes_alt :
    Pop (some dPop) (GoVal.vstr "b") [GoVal.vint 7] =
      Except.ok (GoVal.vslice [GoVal.vint 7], some dPop) ∧
    Get (some dPop) (GoVal.vstr "b") [GoVal.vint 7] = GoVal.vint 7 ∧
    GoVal.vslice [GoVal.vint 7] ≠ GoVal.vint 7 ∧
    Pop (some dPop) (GoVal.vstr "b") [] =
      Except.ok (GoVal.vslice [], some dPop) ∧
    Pop (some dPopNil) (GoVal.vstr "a") [] =
      Except.ok (GoVal.vnil, some dPopNil) ∧
    dPopNil.keys.length = 1 := by
  exact ⟨by decide, by decide, by decide, by decide, by decide, by decide⟩

/-- C9: the stream `Items()` returns reflects exactly the container's
contents at the instant of the call — names and values in insertion order,
one item per entry — and draining it after a `Clear()` has completed still
delivers the full original snapshot (the producer only reads the captured
snapshot, never the live container), while the cleared container's own
stream is empty. -/
theorem C9_items_snapshot (d : Dict) (hwf : WF d) :
    ∀ b d', Clear (some d) = (b, some d') →
      drainItems ((Items (some d)).getD []) (some d') = snapshotItems d ∧
      (snapshotItems d).length = Dict.Len d ∧
      (snapshotItems d).map Item.Key = d.keys.map (fun k => GoVal.vstr k.Name) ∧
      (snapshotItems d).map Item.Value =
        d.keys.map (fun k => (mapGet d.values k.ID).getD GoVal.vnil) ∧
      Items (some d') = some [] := by
  intro b d' h
  refine ⟨?_, ?_, ?_, ?_, ?_⟩
  · by_cases hb : (d.size == 0) = true
    · have hkeys : d.keys = [] := by
        have h1 := hwf.1
        rw [show d.size = 0 by simpa using hb] at h1
        exact List.length_eq_zero.mp h1.symm
      simp [drainItems, Items, hb, snapshotItems, hkeys]
    · simp [drainItems, Items, hb]
  · simp [snapshotItems, Dict.Len, hwf.1]
  · simp [snapshotItems]
  · simp [snapshotItems]
  · simp only [Clear] at h
    by_cases hb : (d.size == 0) = true
    · rw [if_pos hb] at h
      obtain ⟨-, h2⟩ := Prod.mk.injEq .. ▸ h
      cases Option.some.inj h2
      simp [Items, hb]
    · rw [if_neg hb] at h
      obtain ⟨-, h2⟩ := Prod.mk.injEq .. ▸ h
      cases Option.some.inj h2
      simp [Items]

/-- The two-entry container used as C9's witness input. -/
def dSnap : Dict := New [Input.sliceIn [GoVal.vint 1, GoVal.vint 2]]

/-- Witness for C9: on the concrete container `{0:1, 1:2}`, the snapshot
taken before `Clear` is still delivered in full afterwards, and the cleared
container's own stream is empty. -/
theorem C9_items_snapshot_witness :
    drainItems ((Items (some dSnap)).getD [])
        (some { size := 0, version := 3, keys := [], values := [] }) =
      snapshotItems dSnap ∧
    (snapshotItems dSnap).length = Dict.Len dSnap ∧
    Items (some ({ size := 0, version := 3, keys := [], values := [] } : Dict)) =
      some [] := by
  have h := C9_items_snapshot dSnap (by decide) true
    { size := 0, version := 3, keys := [], values := [] } (by decide)
  exact ⟨h.1, h.2.1, h.2.2.2.2⟩

end dict
